import Mathlib

/-!
Verification of the EALib digital-evolution scheduler and line-of-descent
subsystem (`libea/include/ea/digital_evolution/schedulers.h` together with
the `line_of_descent.h` material included in the same source file).

The C++ code is shallowly embedded as executable Lean functions:

* machine integers (`long`, `std::size_t`, `int`) are modeled as `Nat`
  (all the quantities involved are non-negative) except `last_period`,
  which starts at `-1` and is therefore an `Int`;
* the floating-point computation `ncycles_per_period = budget * (1.0 /
  resource_slice)` truncated to `long` is modeled by the exact natural
  division `budget / resource_slice`; every concrete input used in a
  witness or counterexample below uses a power-of-two or unit
  `resource_slice`, for which the double computation is exact and agrees
  with the rational model;
* the `while` loop of the scheduler is modeled by a fuel-indexed
  recursion returning `Except`; exhausting the fuel is an explicit error
  value, and C++ undefined behavior (integer division by zero,
  out-of-bounds indexing) is likewise an explicit error value placed at
  the program point where the C++ code would perform the faulty
  operation;
* `std::random_shuffle` permutes the population in place before the
  loop; the tick is modeled on the already-shuffled population, so every
  theorem quantifies over all visitation orders;
* the opaque organism `execute` operation (which may append offspring to
  the population as a side effect) and the priority accessor are
  parameters of the embedding.
-/

namespace EALib

/-- An organism, with the fields this subsystem reads: `alive()`, the
stored priority (the C++ code casts the `double` priority to
`std::size_t` at the single point of use, so we store the cast value),
the opaque equality-comparable representation `repr()`, and the
`FIXATION_TIME` metadata entry (`none` models `!exists<FIXATION_TIME>`). -/
structure Org where
  alive : Bool
  priority : Nat
  repr : Nat
  fixation_time : Option Int
  deriving DecidableEq

namespace access

/-- `access::priority`: reads the organism's stored priority
(`ind.priority()`), cast to `std::size_t` at the call site. -/
def priority (o : Org) : Nat := o.priority

/-- `access::fixed_priority`: always `1.0`, i.e. one cycle per visit. -/
def fixed_priority (_ : Org) : Nat := 1

end access

/-- Errors of the scheduler embedding.  `divByZero` marks the C++
undefined behavior `consumed / ncycles_per_period` with
`ncycles_per_period == 0`; `indexOOB` marks an out-of-bounds
`population[i]`; `outOfFuel` marks exhaustion of the termination fuel
(the C++ loop can run forever, e.g. when every quantum is zero). -/
inductive SchedErr where
  | divByZero
  | indexOOB
  | outOfFuel
  deriving DecidableEq

/-- The mutable state of `weighted_round_robin::operator()`'s while
loop: the population vector (offspring may be appended by `execute`),
`consumed`, `last_period`, the round-robin index `i` and `deadcount`,
plus two ghost fields recording the observable interaction with the
collaborators: `updates` lists, in order, the period values for which
`ea.resources().update(delta_t)` was invoked (each invocation passes the
same `delta_t`), and `executed` lists, in order, the quantum `n` of each
`p->execute(n, p, ea)` call. -/
structure LoopState where
  pop : List Org
  consumed : Nat
  last_period : Int
  i : Nat
  deadcount : Nat
  updates : List Nat
  executed : List Nat
  deriving DecidableEq

/-- One iteration of the scheduler's while loop body
(`schedulers.h:85`-`106`): compute `period = consumed /
ncycles_per_period`, advance the resource pool once if the period
changed, then either execute the organism at index `i` for `n = acc(p)`
cycles (appending `n` to `consumed`) or count it dead, and finally step
the index cyclically modulo the pre-tick population size `N`. -/
def wrrStep (acc : Org → Nat) (exec : Nat → Nat → List Org → List Org)
    (P N : Nat) (s : LoopState) : Except SchedErr LoopState :=
  if P = 0 then .error .divByZero
  else
    let period : Nat := s.consumed / P
    let s1 : LoopState :=
      if (period : Int) = s.last_period then s
      else { s with last_period := (period : Int), updates := s.updates ++ [period] }
    match s1.pop[s1.i]? with
    | none => .error .indexOOB
    | some p =>
      let s2 : LoopState :=
        if p.alive then
          { s1 with pop := exec s1.i (acc p) s1.pop
                    consumed := s1.consumed + acc p
                    executed := s1.executed ++ [acc p] }
        else { s1 with deadcount := s1.deadcount + 1 }
      .ok { s2 with i := (s2.i + 1) % N }

/-- The scheduler's while loop: `while((consumed < budget) && (deadcount
< N))` run `wrrStep`.  `fuel` bounds the number of iterations. -/
def wrrLoop (acc : Org → Nat) (exec : Nat → Nat → List Org → List Org)
    (budget P N : Nat) : Nat → LoopState → Except SchedErr LoopState
  | 0, _ => .error .outOfFuel
  | fuel + 1, s =>
    if s.consumed < budget ∧ s.deadcount < N then
      match wrrStep acc exec P N s with
      | .error e => .error e
      | .ok s2 => wrrLoop acc exec budget P N fuel s2
    else .ok s

/-- The population rebuild at tick end (`schedulers.h:108`-`116`): scan
the (possibly grown) population by index and push back every organism
that is still alive, in order. -/
def rebuild (pop : List Org) : List Org :=
  pop.foldl (fun next p => if p.alive then next ++ [p] else next) []

/-- One full tick of `weighted_round_robin::operator()` on the
already-shuffled population: compute `eff_population_size`, `budget`,
`ncycles_per_period` and `N`, run the while loop from the initial state
(`consumed = 0`, `last_period = -1`, `i = 0`, `deadcount = 0`), then
rebuild the population from the survivors.  `TIME_SLICE`,
`RESOURCE_SLICE` and `POPULATION_SIZE` are the configuration entries
read via `get<...>(ea)`. -/
def wrrTick (acc : Org → Nat) (exec : Nat → Nat → List Org → List Org)
    (TIME_SLICE RESOURCE_SLICE POPULATION_SIZE : Nat)
    (pop : List Org) (fuel : Nat) : Except SchedErr (List Org × LoopState) :=
  let eff := min pop.length POPULATION_SIZE
  let budget := TIME_SLICE * eff
  let P := budget / RESOURCE_SLICE
  let N := pop.length
  match wrrLoop acc exec budget P N fuel ⟨pop, 0, -1, 0, 0, [], []⟩ with
  | .error e => .error e
  | .ok s => .ok (rebuild s.pop, s)

/-! ## Lineage deduplication (`line_of_descent::uniq` / `runiq`) -/

/-- The forward scan of `uniq` (`line_of_descent.h`): `back` is the
element last examined, the list is what remains; when the next element's
representation equals `back`'s, `back` is erased (not emitted), else it
is kept.  The final `back` is always kept. -/
def uniqAux (back : Org) : List Org → List Org
  | [] => [back]
  | i :: rest =>
    if i.repr = back.repr then uniqAux i rest
    else back :: uniqAux i rest

/-- `line_of_descent::uniq`: remove all redundant genomes from the
lineage, preserving the most recent copy of each run of equal
representations.  (For lineages of size at most 1 the C++ code does
nothing; `uniqAux` agrees.) -/
def uniq : List Org → List Org
  | [] => []
  | x :: rest => uniqAux x rest

/-- The backward scan of `runiq`: the loop walks from the tail toward
the head, so by the time iterator `i` is examined the entire suffix to
its right has already been processed; `i` is compared with the head of
that processed suffix and, when the representations are equal, that head
(the *later* element) is erased. -/
def runiqAux : List Org → List Org
  | [] => []
  | a :: rest =>
    match runiqAux rest with
    | [] => [a]
    | b :: rest2 =>
      if a.repr = b.repr then a :: rest2
      else a :: b :: rest2

/-- `line_of_descent::runiq`: remove all redundant genomes, preserving
the oldest copy.  The C++ loop stops *before* comparing the first
element (the root ancestor) with its successor — `for( ;
i!=_lod.begin(); --i)` — so the head and its immediate successor are
never erased; hence the head is emitted unconditionally and only the
tail is scanned. -/
def runiq : List Org → List Org
  | [] => []
  | x :: rest => x :: runiqAux rest

/-! ## Ancestry graph, lineage extraction and the MRCA resolver -/

/-- The ancestry graph over all organisms ever retained in memory.
Organisms are identified by `Nat` ids (standing for the addresses
`boost::shared_ptr` compares); `parentsOf v` is `v`'s `_lod_parents`
set, listed in `std::set` iteration order, so `lod_parent()` (i.e.
`*_lod_parents.begin()`) is its head.  `nodes` lists the organisms
currently allocated: per the ownership model, an organism is retained
exactly while the live population, some offspring's parent set, or an
external lineage snapshot still references it. -/
structure AncGraph where
  nodes : List Nat
  parentsOf : Nat → List Nat

/-- `shared_ptr::use_count()` of organism `x`, per the ownership model:
one reference per occurrence in the live population vector, one per
allocated organism whose parent set contains `x`, plus one per local
`individual_ptr_type` variable of the currently executing resolver that
holds `x` (`locals`). -/
def useCount (g : AncGraph) (pop : List Nat) (locals : List Nat) (x : Nat) : Nat :=
  pop.count x + (g.nodes.filter (fun y => x ∈ g.parentsOf y)).length + locals.count x

/-- The loop of `line_of_descent::mrca` (`schedulers.h:499`-`518`):
while `offspring->has_parents()`, fetch `parent = offspring->lod_parent()`
and compare `parent.use_count()` with `offspring.use_count()`; on `<`
the candidate `m` moves to the offspring, on `>` to the parent, on
equality it is unchanged; then walk up.  At comparison time the
resolver's own locals `offspring`, `parent` and `m` each hold one
reference. -/
def mrcaLoop (g : AncGraph) (pop : List Nat) : Nat → Nat → Nat → Option Nat
  | 0, _, _ => none
  | fuel + 1, offspring, m =>
    match (g.parentsOf offspring).head? with
    | none => some m
    | some parent =>
      let locals := [offspring, parent, m]
      let m2 :=
        if useCount g pop locals parent < useCount g pop locals offspring then offspring
        else if useCount g pop locals offspring < useCount g pop locals parent then parent
        else m
      mrcaLoop g pop fuel parent m2

/-- `line_of_descent::mrca`: start from the first member of the (non
empty) population, with the candidate initialized to that member, and
run the backward walk.  `none` models both the `assert` on an empty
population and fuel exhaustion. -/
def mrca (g : AncGraph) (pop : List Nat) (fuel : Nat) : Option Nat :=
  match pop with
  | [] => none
  | o :: _ => mrcaLoop g pop fuel o o

/-- `line_of_descent::lineage` (`schedulers.h:476`-`486`): push the
individual, then while it has parents move to `lod_parent()` (the first
parent in the set) and push front; the result is ordered from ancestor
to offspring.  The walk performs no multiple-parent check.  `none`
models fuel exhaustion (an ill-founded parent graph). -/
def chainOf (g : AncGraph) : Nat → Nat → Option (List Nat)
  | 0, _ => none
  | fuel + 1, v =>
    match (g.parentsOf v).head? with
    | none => some [v]
    | some p => (chainOf g fuel p).map (fun c => c ++ [v])

/-- Modelled from the spec: the brute-force most-recent-common-ancestor
used as the reference point for the resolver — the deepest node of the
first member's ancestor chain that lies on the ancestor chain of every
population member. -/
def bruteForceMRCA (g : AncGraph) (pop : List Nat) (fuel : Nat) : Option Nat :=
  match pop with
  | [] => none
  | o :: rest =>
    match chainOf g fuel o, rest.mapM (chainOf g fuel) with
    | some c0, some cs => (c0.filter (fun n => cs.all (fun c => n ∈ c))).getLast?
    | _, _ => none

/-- Modelled from the spec: the share-count of an ancestry node — the
number of current population members whose lineage passes through it. -/
def shareCount (g : AncGraph) (pop : List Nat) (fuel : Nat) (x : Nat) : Nat :=
  (pop.filter (fun m =>
    match chainOf g fuel m with
    | some c => x ∈ c
    | none => false)).length

/-! ## Fixation tracking (`track_fixation_events`) -/

/-- The reverse-iterator walk of `track_fixation_events::operator()`
(`schedulers.h:672`-`684`), applied to the lineage listed most recent
first: stamp `FIXATION_TIME = t` on each node while it is unset, and
`break` at the first node that already has a fixation time, leaving the
remainder untouched. -/
def stampRev (t : Int) : List Org → List Org
  | [] => []
  | o :: rest =>
    match o.fixation_time with
    | none => { o with fixation_time := some t } :: stampRev t rest
    | some _ => o :: rest

/-- `track_fixation_events::operator()` restricted to its walk over an
already-computed lineage (ancestor first, as produced by
`mrca_lineage`): iterate from `rbegin()` to `rend()` stamping unset
nodes with the current update `t` and stopping at the first stamped
node. -/
def track_fixation_events (t : Int) (lod : List Org) : List Org :=
  (stampRev t lod.reverse).reverse

/-! ## Concrete instances used by the counterexamples and witnesses -/

/-- A minimal asexual ancestry tree: one root ancestor `0` with two
children `1` and `2`; all three organisms are retained in memory. -/
def rootTwoKids : AncGraph :=
  ⟨[0, 1, 2], fun v => if v = 1 ∨ v = 2 then [0] else []⟩

/-- A sexual ancestry graph: organism `2` has the two parents `0` and
`1` (listed in `std::set` order). -/
def twoParents : AncGraph :=
  ⟨[0, 1, 2], fun v => if v = 2 then [0, 1] else []⟩

/-- The identity `execute` collaborator: consumes its cycles without
dying, reproducing, or otherwise touching the population. -/
def idExec : Nat → Nat → List Org → List Org := fun _ _ pop => pop

/-! ## Lemmas about `uniq` and `runiq` -/

theorem uniqAux_head_repr (l : List Org) :
    ∀ back, (uniqAux back l).head?.map Org.repr = some back.repr := by
  induction l with
  | nil => intro back; rfl
  | cons i rest ih =>
    intro back
    by_cases h : i.repr = back.repr
    · rw [uniqAux, if_pos h, ih i, h]
    · rw [uniqAux, if_neg h]; rfl

theorem uniqAux_ne_nil (l : List Org) (back : Org) : uniqAux back l ≠ [] := by
  intro h
  have hh := uniqAux_head_repr l back
  rw [h] at hh
  simp at hh

theorem uniqAux_getLast (l : List Org) :
    ∀ back, (uniqAux back l).getLast? = (back :: l).getLast? := by
  induction l with
  | nil => intro back; rfl
  | cons i rest ih =>
    intro back
    by_cases h : i.repr = back.repr
    · rw [uniqAux, if_pos h, ih i, List.getLast?_cons_cons]
    · rw [uniqAux, if_neg h]
      obtain ⟨h0, t, he⟩ := List.exists_cons_of_ne_nil (uniqAux_ne_nil rest i)
      rw [he, List.getLast?_cons_cons, ← he, ih i, List.getLast?_cons_cons]

theorem uniqAux_chain (l : List Org) :
    ∀ back, (uniqAux back l).Chain' (fun a b => a.repr ≠ b.repr) := by
  induction l with
  | nil => intro back; simp [uniqAux]
  | cons i rest ih =>
    intro back
    by_cases h : i.repr = back.repr
    · rw [uniqAux, if_pos h]; exact ih i
    · rw [uniqAux, if_neg h, List.chain'_cons']
      refine ⟨fun y hy => ?_, ih i⟩
      have hh := uniqAux_head_repr rest i
      rw [hy] at hh
      simp only [Option.map_some'] at hh
      intro hby
      exact h (by rw [← (Option.some_injective _ hh), ← hby])

theorem uniqAux_of_chain (l : List Org) :
    ∀ back, (back :: l).Chain' (fun a b => a.repr ≠ b.repr) → uniqAux back l = back :: l := by
  induction l with
  | nil => intro back _; rfl
  | cons i rest ih =>
    intro back hc
    rw [List.chain'_cons] at hc
    rw [uniqAux, if_neg (fun he => hc.1 he.symm), ih i hc.2]

theorem runiqAux_eq_of_nil (a : Org) (rest : List Org) (h : runiqAux rest = []) :
    runiqAux (a :: rest) = [a] := by
  rw [runiqAux, h]

theorem runiqAux_eq_of_cons (a b : Org) (rest rest2 : List Org) (h : runiqAux rest = b :: rest2) :
    runiqAux (a :: rest) = if a.repr = b.repr then a :: rest2 else a :: b :: rest2 := by
  rw [runiqAux, h]

theorem runiqAux_head (l : List Org) : (runiqAux l).head? = l.head? := by
  cases l with
  | nil => rfl
  | cons a rest =>
    cases hb : runiqAux rest with
    | nil => rw [runiqAux_eq_of_nil a rest hb]; rfl
    | cons b rest2 =>
      rw [runiqAux_eq_of_cons a b rest rest2 hb]
      by_cases h : a.repr = b.repr
      · rw [if_pos h]; rfl
      · rw [if_neg h]; rfl

theorem runiqAux_ne_nil (l : List Org) (h : l ≠ []) : runiqAux l ≠ [] := by
  intro h2
  have hh := runiqAux_head l
  rw [h2] at hh
  exact h (List.head?_eq_none_iff.mp hh.symm)

theorem runiqAux_getLast_repr (l : List Org) :
    (runiqAux l).getLast?.map Org.repr = l.getLast?.map Org.repr := by
  induction l with
  | nil => rfl
  | cons a rest ih =>
    by_cases hr : rest = []
    · subst hr; rfl
    · obtain ⟨b, rest2, hb⟩ := List.exists_cons_of_ne_nil (runiqAux_ne_nil rest hr)
      obtain ⟨r0, rest3, hrest⟩ := List.exists_cons_of_ne_nil hr
      rw [runiqAux_eq_of_cons a b rest rest2 hb]
      rw [hb] at ih
      by_cases h : a.repr = b.repr
      · rw [if_pos h]
        cases rest2 with
        | nil =>
          simp only [List.getLast?_singleton] at ih ⊢
          rw [hrest, List.getLast?_cons_cons, ← hrest, ← ih, Option.map_some', h]
          rfl
        | cons c rest4 =>
          rw [List.getLast?_cons_cons, hrest, List.getLast?_cons_cons, ← hrest, ← ih,
            List.getLast?_cons_cons]
      · rw [if_neg h, List.getLast?_cons_cons, hrest, List.getLast?_cons_cons, ← hrest, ih]

theorem runiqAux_chain (l : List Org) :
    (runiqAux l).Chain' (fun a b => a.repr ≠ b.repr) := by
  induction l with
  | nil => simp [runiqAux]
  | cons a rest ih =>
    cases hb : runiqAux rest with
    | nil => rw [runiqAux_eq_of_nil a rest hb]; simp
    | cons b rest2 =>
      rw [runiqAux_eq_of_cons a b rest rest2 hb]
      rw [hb] at ih
      by_cases h : a.repr = b.repr
      · rw [if_pos h]
        rw [List.chain'_cons'] at ih ⊢
        refine ⟨fun y hy => ?_, ih.2⟩
        rw [h]
        exact ih.1 y hy
      · rw [if_neg h, List.chain'_cons]
        exact ⟨h, ih⟩

theorem runiqAux_of_chain (l : List Org) (hc : l.Chain' (fun a b => a.repr ≠ b.repr)) :
    runiqAux l = l := by
  induction l with
  | nil => rfl
  | cons a rest ih =>
    cases rest with
    | nil => rfl
    | cons b rest2 =>
      rw [List.chain'_cons] at hc
      rw [runiqAux_eq_of_cons a b (b :: rest2) rest2 (ih hc.2), if_neg hc.1]

/-- C5 counterexample: on a two-node lineage whose nodes share a
representation but are different organisms, `uniq` erases the first
node, so the lineage's first element changes (from the live node to the
dead one); the frozen claim's "never change the lineage's first or last
element" is false for `uniq`. -/
theorem C5_counterexample :
    uniq [⟨true, 1, 5, none⟩, ⟨false, 2, 5, none⟩] = [⟨false, 2, 5, none⟩]
    ∧ ([(⟨true, 1, 5, none⟩ : Org), ⟨false, 2, 5, none⟩].head? = some ⟨true, 1, 5, none⟩)
    ∧ (uniq [⟨true, 1, 5, none⟩, ⟨false, 2, 5, none⟩]).head? = some ⟨false, 2, 5, none⟩
    ∧ (⟨true, 1, 5, none⟩ : Org) ≠ ⟨false, 2, 5, none⟩ :=
  ⟨rfl, rfl, rfl, by decide⟩

/-- C5 (amended): `uniq` never changes the lineage's last element and
preserves the first element's representation; `runiq` never changes the
lineage's first element (in particular it never removes the root
ancestor node, regardless of representation equality) and preserves the
last element's representation; applying either operation twice gives the
same result as applying it once. -/
theorem C5_uniq_runiq_endpoints_idempotent (l : List Org) :
    (uniq l).getLast? = l.getLast?
    ∧ (runiq l).head? = l.head?
    ∧ (uniq l).head?.map Org.repr = l.head?.map Org.repr
    ∧ (runiq l).getLast?.map Org.repr = l.getLast?.map Org.repr
    ∧ uniq (uniq l) = uniq l
    ∧ runiq (runiq l) = runiq l := by
  cases l with
  | nil => exact ⟨rfl, rfl, rfl, rfl, rfl, rfl⟩
  | cons x rest =>
    refine ⟨uniqAux_getLast rest x, rfl, ?_, ?_, ?_, ?_⟩
    · rw [uniq, uniqAux_head_repr]; rfl
    · rw [runiq]
      by_cases hr : rest = []
      · subst hr; rfl
      · obtain ⟨b, rest2, hb⟩ := List.exists_cons_of_ne_nil (runiqAux_ne_nil rest hr)
        obtain ⟨r0, rest3, hrest⟩ := List.exists_cons_of_ne_nil hr
        rw [hb, List.getLast?_cons_cons, ← hb, runiqAux_getLast_repr, hrest,
          List.getLast?_cons_cons]
    · rw [uniq]
      obtain ⟨h0, t, he⟩ := List.exists_cons_of_ne_nil (uniqAux_ne_nil rest x)
      rw [he, uniq, uniqAux_of_chain t h0 (by rw [← he]; exact uniqAux_chain rest x)]
    · rw [runiq, runiq, runiqAux_of_chain _ (runiqAux_chain rest)]

/-! ## Lemmas about lineage extraction -/

theorem chainOf_eq_of_root (g : AncGraph) (fuel : Nat) (v : Nat)
    (h : (g.parentsOf v).head? = none) : chainOf g (fuel + 1) v = some [v] := by
  rw [chainOf, h]

theorem chainOf_eq_of_parent (g : AncGraph) (fuel : Nat) (v p : Nat)
    (h : (g.parentsOf v).head? = some p) :
    chainOf g (fuel + 1) v = (chainOf g fuel p).map (fun c => c ++ [v]) := by
  rw [chainOf, h]

/-- C7 counterexample: organism `2` has two parents, yet lineage
extraction succeeds and returns the chain `[0, 2]` (silently following
`lod_parent()`, the first parent in the set) instead of failing with a
multiple-parents condition; the embedding of `lineage` has no failure
path other than fuel exhaustion because the source performs no check. -/
theorem C7_counterexample :
    (twoParents.parentsOf 2).length = 2
    ∧ chainOf twoParents 8 2 = some [0, 2] :=
  ⟨rfl, rfl⟩

/-- C7 (amended): lineage extraction performs no multiple-parent check;
whenever it returns a chain, the chain ends at the requested organism,
starts at a node with an empty parent set, and each node is followed by
a node whose *first* parent it is — multiple parents are silently
resolved to `*_lod_parents.begin()` and no error condition is ever
surfaced. -/
theorem C7_lineage_follows_first_parent (g : AncGraph) :
    ∀ fuel v c, chainOf g fuel v = some c →
      c.getLast? = some v
      ∧ (∃ r, c.head? = some r ∧ g.parentsOf r = [])
      ∧ c.Chain' (fun a b => (g.parentsOf b).head? = some a) := by
  intro fuel
  induction fuel with
  | zero =>
    intro v c h
    exact absurd h (by rw [chainOf]; exact fun hh => Option.noConfusion hh)
  | succ fuel ih =>
    intro v c h
    cases hp : (g.parentsOf v).head? with
    | none =>
      rw [chainOf_eq_of_root g fuel v hp] at h
      cases h
      exact ⟨rfl, ⟨v, rfl, List.head?_eq_none_iff.mp hp⟩, List.chain'_singleton v⟩
    | some p =>
      rw [chainOf_eq_of_parent g fuel v p hp] at h
      cases hc : chainOf g fuel p with
      | none => rw [hc] at h; exact absurd h (fun hh => Option.noConfusion hh)
      | some c0 =>
        rw [hc, Option.map_some'] at h
        cases h
        obtain ⟨hlast, ⟨r, hr, hroot⟩, hchain⟩ := ih p c0 hc
        have hc0ne : c0 ≠ [] := by
          intro hnil
          rw [hnil] at hlast
          exact Option.noConfusion hlast
        refine ⟨List.getLast?_concat c0, ⟨r, ?_, hroot⟩, ?_⟩
        · rw [List.head?_append_of_ne_nil _ hc0ne, hr]
        · rw [List.chain'_append]
          refine ⟨hchain, List.chain'_singleton v, fun x hx y hy => ?_⟩
          rw [hlast] at hx
          cases hx
          cases hy
          exact hp

/-- C7 witness: the amended characterization applied to the
two-parents graph, on which extraction returned the chain `[0, 2]`. -/
theorem C7_witness :
    ([0, 2] : List Nat).getLast? = some 2
    ∧ (∃ r, ([0, 2] : List Nat).head? = some r ∧ twoParents.parentsOf r = [])
    ∧ ([0, 2] : List Nat).Chain' (fun a b => (twoParents.parentsOf b).head? = some a) :=
  C7_lineage_follows_first_parent twoParents 8 2 [0, 2] rfl

/-! ## Lemmas about fixation tracking -/

theorem stampRev_cons_none (t : Int) (o : Org) (rest : List Org)
    (h : o.fixation_time = none) :
    stampRev t (o :: rest) = { o with fixation_time := some t } :: stampRev t rest := by
  rw [stampRev, h]

theorem stampRev_cons_some (t : Int) (o : Org) (rest : List Org) (v : Int)
    (h : o.fixation_time = some v) :
    stampRev t (o :: rest) = o :: rest := by
  rw [stampRev, h]

theorem stampRev_all_unset (t : Int) (l : List Org)
    (h : ∀ o ∈ l, o.fixation_time = none) :
    stampRev t l = l.map (fun o => { o with fixation_time := some t }) := by
  induction l with
  | nil => rfl
  | cons o rest ih =>
    rw [stampRev_cons_none t o rest (h o (List.mem_cons_self o rest)),
      ih (fun x hx => h x (List.mem_cons_of_mem o hx)), List.map_cons]

theorem stampRev_append_set (t : Int) (l1 : List Org) (b : Org) (l2 : List Org)
    (h1 : ∀ o ∈ l1, o.fixation_time = none) (hb : b.fixation_time ≠ none) :
    stampRev t (l1 ++ b :: l2)
      = l1.map (fun o => { o with fixation_time := some t }) ++ b :: l2 := by
  induction l1 with
  | nil =>
    obtain ⟨v, hv⟩ := Option.ne_none_iff_exists'.mp hb
    rw [List.nil_append, stampRev_cons_some t b l2 v hv, List.map_nil, List.nil_append]
  | cons o rest ih =>
    rw [List.cons_append, stampRev_cons_none t o _ (h1 o (List.mem_cons_self o rest)),
      ih (fun x hx => h1 x (List.mem_cons_of_mem o hx)), List.map_cons, List.cons_append]

/-- C8: the fixation tracker walks the lineage from the most recent
node backward toward the root, stamps the current tick on every node
whose fixation time is unset, stops at the first node already stamped,
and leaves everything from that node rootward untouched — so a fixation
time, once set, is never overwritten.  `pre` is the rootward part ending
in the first stamped node met by the walk (or the whole prefix when the
walk exhausts the lineage), `suf` the unset tail that gets stamped. -/
theorem C8_fixation_stamping (t : Int) (lod pre suf : List Org)
    (hsplit : lod = pre ++ suf)
    (hsuf : ∀ o ∈ suf, o.fixation_time = none)
    (hpre : pre = [] ∨ ∃ pre2 b, pre = pre2 ++ [b] ∧ b.fixation_time ≠ none) :
    track_fixation_events t lod
      = pre ++ suf.map (fun o => { o with fixation_time := some t }) := by
  subst hsplit
  rw [track_fixation_events, List.reverse_append]
  have hsufrev : ∀ o ∈ suf.reverse, o.fixation_time = none :=
    fun o ho => hsuf o (List.mem_reverse.mp ho)
  cases hpre with
  | inl h =>
    subst h
    rw [List.reverse_nil, List.append_nil, List.nil_append, stampRev_all_unset t _ hsufrev,
      ← List.map_reverse, List.reverse_reverse]
  | inr h =>
    obtain ⟨pre2, b, hpre2, hb⟩ := h
    subst hpre2
    rw [List.reverse_append, List.reverse_singleton, List.singleton_append,
      stampRev_append_set t suf.reverse b pre2.reverse hsufrev hb,
      List.reverse_append, List.reverse_cons, ← List.map_reverse, List.reverse_reverse,
      List.reverse_reverse, List.append_assoc]

/-- C8 witness: a three-node lineage whose root is already stamped at
tick 2; at tick 5 the tracker stamps the two unset recent nodes and
leaves the root's fixation time unchanged. -/
theorem C8_witness :
    track_fixation_events 5 [⟨true, 1, 0, some 2⟩, ⟨true, 1, 1, none⟩, ⟨true, 1, 2, none⟩]
      = [⟨true, 1, 0, some 2⟩, ⟨true, 1, 1, some 5⟩, ⟨true, 1, 2, some 5⟩] := by
  have h := C8_fixation_stamping 5
    [⟨true, 1, 0, some 2⟩, ⟨true, 1, 1, none⟩, ⟨true, 1, 2, none⟩]
    [⟨true, 1, 0, some 2⟩] [⟨true, 1, 1, none⟩, ⟨true, 1, 2, none⟩]
    rfl (by decide) (Or.inr ⟨[], ⟨true, 1, 0, some 2⟩, rfl, by decide⟩)
  exact h

/-! ## The MRCA resolver bug and the missing configuration check -/

/-- C1 (code bug): on the asexual tree with root `0` and two live
children `1` and `2`, the most-recent-common-ancestor of the population
`[1, 2]` is the root `0` — the unique node of maximal share-count lying
on every member's lineage — but `line_of_descent::mrca` returns the
starting organism `1`: at the only comparison the reference counts tie
(parent `0`: two parent-set entries plus the `parent` local = 3;
offspring `1`: one population entry plus the `offspring` and `m` locals
= 3), so the candidate never moves off its initialization. -/
theorem C1_mrca_disagrees_with_brute_force :
    mrca rootTwoKids [1, 2] 8 = some 1
    ∧ bruteForceMRCA rootTwoKids [1, 2] 8 = some 0
    ∧ shareCount rootTwoKids [1, 2] 8 0 = 2
    ∧ shareCount rootTwoKids [1, 2] 8 1 = 1
    ∧ (1 : Nat) ≠ 0 :=
  ⟨rfl, rfl, rfl, rfl, by decide⟩

/-- C6 (code bug): with `time_slice = 1`, `resource_slice = 2`,
`max_population_size = 1` and a single live organism, `budget = 1` and
`ncycles_per_period = floor(1 * 0.5) = 0`; the scheduler performs the
integer division `consumed / ncycles_per_period` by zero inside the
first loop iteration — there is no configuration check, so no
configuration error is raised before the tick loop starts. -/
theorem C6_zero_period_divides_by_zero :
    wrrTick access.fixed_priority idExec 1 2 1 [⟨true, 1, 0, none⟩] 8
      = .error .divByZero := rfl

/-! ## Lemmas about the scheduler -/

theorem rebuild_foldl (pop : List Org) :
    ∀ acc0, pop.foldl (fun next p => if p.alive then next ++ [p] else next) acc0
      = acc0 ++ pop.filter (fun o => o.alive) := by
  induction pop with
  | nil => intro acc0; simp
  | cons p rest ih =>
    intro acc0
    rw [List.foldl_cons]
    cases h : p.alive with
    | true => simp [h, ih, List.filter_cons]
    | false => simp [h, ih, List.filter_cons]

theorem rebuild_eq_filter (pop : List Org) :
    rebuild pop = pop.filter (fun o => o.alive) := by
  rw [rebuild, rebuild_foldl, List.nil_append]

theorem wrrTick_ok (acc : Org → Nat) (exec : Nat → Nat → List Org → List Org)
    (TS RS PS : Nat) (pop : List Org) (fuel : Nat) (next : List Org) (s : LoopState)
    (h : wrrTick acc exec TS RS PS pop fuel = .ok (next, s)) :
    wrrLoop acc exec (TS * min pop.length PS) (TS * min pop.length PS / RS) pop.length fuel
        ⟨pop, 0, -1, 0, 0, [], []⟩ = .ok s
    ∧ next = rebuild s.pop := by
  simp only [wrrTick] at h
  cases hl : wrrLoop acc exec (TS * min pop.length PS) (TS * min pop.length PS / RS)
      pop.length fuel ⟨pop, 0, -1, 0, 0, [], []⟩ with
  | error e => rw [hl] at h; exact Except.noConfusion h
  | ok s0 =>
    rw [hl] at h
    injection h with h2
    rw [Prod.mk.injEq] at h2
    obtain ⟨hnext, hs⟩ := h2
    subst hs
    exact ⟨rfl, hnext.symm⟩

/-- C4: the population produced at tick end keeps exactly the organisms
of the loop-end population (including any offspring appended mid-tick)
that are still alive, in their current relative order, and discards
every dead organism. -/
theorem C4_tick_keeps_exactly_live (acc : Org → Nat)
    (exec : Nat → Nat → List Org → List Org) (TS RS PS : Nat) (pop : List Org)
    (fuel : Nat) (next : List Org) (s : LoopState)
    (h : wrrTick acc exec TS RS PS pop fuel = .ok (next, s)) :
    next = s.pop.filter (fun o => o.alive)
    ∧ (∀ o ∈ next, o.alive = true)
    ∧ next.Sublist s.pop := by
  obtain ⟨-, hnext⟩ := wrrTick_ok acc exec TS RS PS pop fuel next s h
  rw [rebuild_eq_filter] at hnext
  subst hnext
  exact ⟨rfl, fun o ho => (List.mem_filter.mp ho).2, List.filter_sublist _⟩

/-- C4 witness: a tick on a two-organism population with one dead
organism ends with the dead organism discarded and the live one kept. -/
theorem C4_witness :
    ([⟨true, 1, 0, none⟩] : List Org)
        = (LoopState.pop ⟨[⟨true, 1, 0, none⟩, ⟨false, 1, 1, none⟩], 2, 0, 1, 1, [0], [1, 1]⟩).filter
            (fun o => o.alive)
    ∧ (∀ o ∈ ([⟨true, 1, 0, none⟩] : List Org), o.alive = true)
    ∧ ([⟨true, 1, 0, none⟩] : List Org).Sublist
        (LoopState.pop ⟨[⟨true, 1, 0, none⟩, ⟨false, 1, 1, none⟩], 2, 0, 1, 1, [0], [1, 1]⟩) :=
  C4_tick_keeps_exactly_live access.fixed_priority idExec 1 1 2
    [⟨true, 1, 0, none⟩, ⟨false, 1, 1, none⟩] 10 [⟨true, 1, 0, none⟩]
    ⟨[⟨true, 1, 0, none⟩, ⟨false, 1, 1, none⟩], 2, 0, 1, 1, [0], [1, 1]⟩ rfl

theorem wrrStep_ok_cases (acc : Org → Nat) (exec : Nat → Nat → List Org → List Org)
    (P N : Nat) (s s2 : LoopState) (h : wrrStep acc exec P N s = .ok s2) :
    P ≠ 0 ∧
    ∃ s1 p,
      ((((s.consumed / P : Nat) : Int) = s.last_period ∧ s1 = s)
        ∨ (((s.consumed / P : Nat) : Int) ≠ s.last_period
            ∧ s1 = { s with last_period := ((s.consumed / P : Nat) : Int),
                            updates := s.updates ++ [s.consumed / P] }))
      ∧ s1.pop[s1.i]? = some p
      ∧ ((p.alive = true
            ∧ s2 = { s1 with pop := exec s1.i (acc p) s1.pop,
                             consumed := s1.consumed + acc p,
                             executed := s1.executed ++ [acc p],
                             i := (s1.i + 1) % N })
        ∨ (p.alive = false
            ∧ s2 = { s1 with deadcount := s1.deadcount + 1, i := (s1.i + 1) % N })) := by
  simp only [wrrStep] at h
  by_cases hP : P = 0
  · rw [if_pos hP] at h
    exact absurd h (fun hh => Except.noConfusion hh)
  · rw [if_neg hP] at h
    refine ⟨hP, ?_⟩
    by_cases hper : ((s.consumed / P : Nat) : Int) = s.last_period
    · rw [if_pos hper] at h
      cases hp : s.pop[s.i]? with
      | none => rw [hp] at h; exact absurd h (fun hh => Except.noConfusion hh)
      | some p =>
        rw [hp] at h
        dsimp only at h
        refine ⟨s, p, Or.inl ⟨hper, rfl⟩, hp, ?_⟩
        by_cases ha : p.alive = true
        · rw [if_pos ha] at h
          injection h with h2
          exact Or.inl ⟨ha, h2.symm⟩
        · rw [if_neg ha] at h
          injection h with h2
          exact Or.inr ⟨Bool.not_eq_true _ ▸ ha, h2.symm⟩
    · rw [if_neg hper] at h
      dsimp only at h
      cases hp : s.pop[s.i]? with
      | none => rw [hp] at h; exact absurd h (fun hh => Except.noConfusion hh)
      | some p =>
        rw [hp] at h
        dsimp only at h
        refine ⟨{ s with last_period := ((s.consumed / P : Nat) : Int),
                         updates := s.updates ++ [s.consumed / P] }, p,
          Or.inr ⟨hper, rfl⟩, hp, ?_⟩
        by_cases ha : p.alive = true
        · rw [if_pos ha] at h
          injection h with h2
          exact Or.inl ⟨ha, h2.symm⟩
        · rw [if_neg ha] at h
          injection h with h2
          exact Or.inr ⟨Bool.not_eq_true _ ▸ ha, h2.symm⟩

theorem wrrLoop_invariant (acc : Org → Nat) (exec : Nat → Nat → List Org → List Org)
    (budget P N : Nat) (Inv : LoopState → Prop)
    (hstep : ∀ s s2, Inv s → s.consumed < budget → s.deadcount < N →
      wrrStep acc exec P N s = .ok s2 → Inv s2) :
    ∀ fuel s s2, Inv s → wrrLoop acc exec budget P N fuel s = .ok s2 → Inv s2 := by
  intro fuel
  induction fuel with
  | zero =>
    intro s s2 _ h
    exact absurd h (by rw [wrrLoop]; exact fun hh => Except.noConfusion hh)
  | succ fuel ih =>
    intro s s2 hInv h
    rw [wrrLoop] at h
    by_cases hc : s.consumed < budget ∧ s.deadcount < N
    · rw [if_pos hc] at h
      cases hs : wrrStep acc exec P N s with
      | error e => rw [hs] at h; exact absurd h (fun hh => Except.noConfusion hh)
      | ok s1 => rw [hs] at h; exact ih s1 s2 (hstep s s1 hInv hc.1 hc.2 hs) h
    · rw [if_neg hc] at h
      injection h with h2
      rw [← h2]
      exact hInv

theorem wrrStep_dead (acc : Org → Nat) (exec : Nat → Nat → List Org → List Org)
    (P N : Nat) (s : LoopState) (p : Org) (hP : P ≠ 0)
    (hper : ((s.consumed / P : Nat) : Int) = s.last_period)
    (hp : s.pop[s.i]? = some p) (hal : p.alive = false) :
    wrrStep acc exec P N s
      = .ok { s with deadcount := s.deadcount + 1, i := (s.i + 1) % N } := by
  simp only [wrrStep, if_neg hP, if_pos hper, hp, hal]
  rfl

theorem wrrStep_dead_update (acc : Org → Nat) (exec : Nat → Nat → List Org → List Org)
    (P N : Nat) (s : LoopState) (p : Org) (hP : P ≠ 0)
    (hper : ((s.consumed / P : Nat) : Int) ≠ s.last_period)
    (hp : s.pop[s.i]? = some p) (hal : p.alive = false) :
    wrrStep acc exec P N s
      = .ok { s with last_period := ((s.consumed / P : Nat) : Int),
                     updates := s.updates ++ [s.consumed / P],
                     deadcount := s.deadcount + 1, i := (s.i + 1) % N } := by
  simp only [wrrStep, if_neg hP, if_neg hper]
  rw [hp]
  simp only [hal]
  rfl

theorem wrrStep_alive (acc : Org → Nat) (exec : Nat → Nat → List Org → List Org)
    (P N : Nat) (s : LoopState) (p : Org) (hP : P ≠ 0)
    (hper : ((s.consumed / P : Nat) : Int) = s.last_period)
    (hp : s.pop[s.i]? = some p) (hal : p.alive = true) :
    wrrStep acc exec P N s
      = .ok { s with pop := exec s.i (acc p) s.pop,
                     consumed := s.consumed + acc p,
                     executed := s.executed ++ [acc p], i := (s.i + 1) % N } := by
  simp only [wrrStep, if_neg hP, if_pos hper, hp, hal]
  rfl

theorem wrrStep_alive_update (acc : Org → Nat) (exec : Nat → Nat → List Org → List Org)
    (P N : Nat) (s : LoopState) (p : Org) (hP : P ≠ 0)
    (hper : ((s.consumed / P : Nat) : Int) ≠ s.last_period)
    (hp : s.pop[s.i]? = some p) (hal : p.alive = true) :
    wrrStep acc exec P N s
      = .ok { s with last_period := ((s.consumed / P : Nat) : Int),
                     updates := s.updates ++ [s.consumed / P],
                     pop := exec s.i (acc p) s.pop,
                     consumed := s.consumed + acc p,
                     executed := s.executed ++ [acc p], i := (s.i + 1) % N } := by
  simp only [wrrStep, if_neg hP, if_neg hper]
  rw [hp]
  simp only [hal]
  rfl

/-- C2 counterexample: with the organism-priority accessor, one live
organism of priority 3, `time_slice = 2` and `max_population_size = 1`,
the budget is `2 * min(1, 1) = 2` but the tick consumes 3 cycles: the
loop head only checks `consumed < budget` before granting a whole
quantum, so the final quantum overshoots the budget. -/
theorem C2_counterexample :
    wrrTick access.priority idExec 2 1 1 [⟨true, 3, 17, none⟩] 8
      = .ok ([⟨true, 3, 17, none⟩], ⟨[⟨true, 3, 17, none⟩], 3, 0, 0, 0, [0], [3]⟩)
    ∧ ¬ (3 ≤ 2 * min ([(⟨true, 3, 17, none⟩ : Org)] : List Org).length 1) :=
  ⟨rfl, by decide⟩

/-- C2 (amended): for every priority accessor whose quanta are bounded
by `q ≥ 1`, the total number of CPU cycles consumed during a tick is
less than `time_slice * min(N, max_population_size) + q`; in particular
for the fixed unit-quantum accessor (`q = 1`) the total is at most
`time_slice * min(N, max_population_size)`, but a quantum greater
than 1 may overshoot the budget by up to `q - 1`. -/
theorem C2_consumed_lt_budget_add_quantum (acc : Org → Nat)
    (exec : Nat → Nat → List Org → List Org) (TS RS PS : Nat) (pop : List Org)
    (fuel q : Nat) (next : List Org) (s : LoopState)
    (hq1 : 1 ≤ q) (hq : ∀ o, acc o ≤ q)
    (h : wrrTick acc exec TS RS PS pop fuel = .ok (next, s)) :
    s.consumed < TS * min pop.length PS + q := by
  obtain ⟨hloop, -⟩ := wrrTick_ok acc exec TS RS PS pop fuel next s h
  refine wrrLoop_invariant acc exec (TS * min pop.length PS) (TS * min pop.length PS / RS)
    pop.length (fun st => st.consumed < TS * min pop.length PS + q) ?_ fuel
    ⟨pop, 0, -1, 0, 0, [], []⟩ s (show 0 < TS * min pop.length PS + q by omega) hloop
  intro st st2 _ hlt _ hs
  obtain ⟨-, s1, p, hs1, -, hbr⟩ := wrrStep_ok_cases acc exec
    (TS * min pop.length PS / RS) pop.length st st2 hs
  have hs1c : s1.consumed = st.consumed := by
    rcases hs1 with ⟨-, h1⟩ | ⟨-, h1⟩ <;> rw [h1]
  rcases hbr with ⟨-, h2⟩ | ⟨-, h2⟩ <;> rw [h2]
  · have := hq p
    simp only [hs1c]
    omega
  · simp only [hs1c]
    omega

/-- C2 witness: the amended bound instantiated with the fixed
unit-quantum accessor on a single-organism population with
`time_slice = 2`: the tick consumes 2 cycles, less than `2 + 1`. -/
theorem C2_witness :
    (LoopState.consumed ⟨[⟨true, 1, 0, none⟩], 2, 0, 0, 0, [0], [1, 1]⟩)
      < 2 * min ([(⟨true, 1, 0, none⟩ : Org)] : List Org).length 1 + 1 :=
  C2_consumed_lt_budget_add_quantum access.fixed_priority idExec 2 1 1
    [⟨true, 1, 0, none⟩] 8 1 [⟨true, 1, 0, none⟩]
    ⟨[⟨true, 1, 0, none⟩], 2, 0, 0, 0, [0], [1, 1]⟩
    (Nat.le_refl 1) (fun _ => Nat.le_refl 1) rfl

theorem wrrLoop_all_dead (acc : Org → Nat) (exec : Nat → Nat → List Org → List Org)
    (budget P : Nat) (pop : List Org) (hdead : ∀ o ∈ pop, o.alive = false)
    (hP : P ≠ 0) (hb : 0 < budget) :
    ∀ fuel i d ups ex, d ≤ pop.length → i < pop.length → pop.length - d < fuel →
      ∃ i2, wrrLoop acc exec budget P pop.length fuel ⟨pop, 0, 0, i, d, ups, ex⟩
        = .ok ⟨pop, 0, 0, i2, pop.length, ups, ex⟩ := by
  intro fuel
  induction fuel with
  | zero => intro i d ups ex _ _ hf; omega
  | succ fuel ih =>
    intro i d ups ex hd hi hf
    by_cases hdN : d < pop.length
    · have hp : pop[i]? = some pop[i] := List.getElem?_eq_getElem hi
      have hstep := wrrStep_dead acc exec P pop.length ⟨pop, 0, 0, i, d, ups, ex⟩ pop[i]
        hP (by simp) hp (hdead pop[i] (pop.getElem_mem hi))
      rw [wrrLoop, if_pos ⟨hb, hdN⟩, hstep]
      exact ih ((i + 1) % pop.length) (d + 1) ups ex hdN
        (Nat.mod_lt _ (Nat.lt_of_le_of_lt (Nat.zero_le i) hi)) (by omega)
    · have hdeq : d = pop.length := Nat.le_antisymm hd (Nat.le_of_not_lt hdN)
      subst hdeq
      refine ⟨i, ?_⟩
      rw [wrrLoop, if_neg (fun hc => (Nat.lt_irrefl _ hc.2))]

theorem wrrTick_all_dead (acc : Org → Nat) (exec : Nat → Nat → List Org → List Org)
    (TS RS PS : Nat) (pop : List Org) (fuel : Nat)
    (hdead : ∀ o ∈ pop, o.alive = false)
    (hP : 1 ≤ TS * min pop.length PS / RS) (hfuel : pop.length + 1 < fuel) :
    ∃ i2, wrrTick acc exec TS RS PS pop fuel
      = .ok ([], ⟨pop, 0, 0, i2, pop.length, [0], []⟩) := by
  have hb : 0 < TS * min pop.length PS := by
    rcases Nat.eq_zero_or_pos (TS * min pop.length PS) with h0 | h
    · rw [h0, Nat.zero_div] at hP
      omega
    · exact h
  have hN : 0 < pop.length := by
    rcases Nat.eq_zero_or_pos pop.length with h0 | h
    · rw [h0] at hb
      simp at hb
    · exact h
  have hPne : TS * min pop.length PS / RS ≠ 0 := by omega
  cases fuel with
  | zero => omega
  | succ f =>
    have hp0 : pop[0]? = some (pop.get ⟨0, hN⟩) := by
      rw [List.getElem?_eq_getElem hN, List.get_eq_getElem]
    have hstep := wrrStep_dead_update acc exec (TS * min pop.length PS / RS) pop.length
      ⟨pop, 0, -1, 0, 0, [], []⟩ (pop.get ⟨0, hN⟩) hPne
      (by show ((0 / (TS * min pop.length PS / RS) : Nat) : Int) ≠ -1
          rw [Nat.zero_div]; decide)
      hp0 (hdead _ (List.get_mem pop _ _))
    obtain ⟨i2, hl⟩ := wrrLoop_all_dead acc exec (TS * min pop.length PS)
      (TS * min pop.length PS / RS) pop hdead hPne hb f (1 % pop.length) 1 [0] []
      hN (Nat.mod_lt 1 hN) (by omega)
    refine ⟨i2, ?_⟩
    have hloopfull : wrrLoop acc exec (TS * min pop.length PS)
        (TS * min pop.length PS / RS) pop.length (f + 1) ⟨pop, 0, -1, 0, 0, [], []⟩
        = .ok ⟨pop, 0, 0, i2, pop.length, [0], []⟩ := by
      rw [wrrLoop, if_pos ⟨hb, hN⟩, hstep]
      simp only [Nat.zero_div, Nat.cast_zero, List.nil_append]
      exact hl
    simp only [wrrTick]
    rw [hloopfull]
    dsimp only
    have hreb : rebuild pop = [] := by
      rw [rebuild_eq_filter, List.filter_eq_nil_iff]
      intro a ha
      rw [hdead a ha]
      exact Bool.false_ne_true
    rw [hreb]

theorem chain_lt_append_last (l : List Nat) (a : Nat) (hc : l.Chain' (· < ·))
    (ha : ∀ u ∈ l, u < a) : (l ++ [a]).Chain' (· < ·) := by
  rw [List.chain'_append]
  refine ⟨hc, List.chain'_singleton a, fun x hx y hy => ?_⟩
  have hx2 : x ∈ l := List.mem_of_mem_getLast? hx
  have hy2 : y = a := by
    simp only [List.head?_cons, Option.mem_def, Option.some.injEq] at hy
    exact hy.symm
  rw [hy2]
  exact ha x hx2

theorem chain_lt_length_le (B : Nat) (l : List Nat) (hc : l.Chain' (· < ·))
    (hb : ∀ u ∈ l, u ≤ B) : l.length ≤ B + 1 := by
  have hp : l.Pairwise (· < ·) := List.chain'_iff_pairwise.mp hc
  have hnd : l.Nodup := hp.imp (fun hlt => Nat.ne_of_lt hlt)
  have hsub : l.toFinset ⊆ Finset.range (B + 1) := by
    intro x hx
    rw [List.mem_toFinset] at hx
    exact Finset.mem_range.mpr (Nat.lt_succ_of_le (hb x hx))
  calc l.length = l.toFinset.card := (List.toFinset_card_of_nodup hnd).symm
    _ ≤ (Finset.range (B + 1)).card := Finset.card_le_card hsub
    _ = B + 1 := Finset.card_range _

theorem wrrLoop_ok_P_ne_zero (acc : Org → Nat) (exec : Nat → Nat → List Org → List Org)
    (budget P N fuel : Nat) (s0 s : LoopState)
    (h : wrrLoop acc exec budget P N fuel s0 = .ok s)
    (hc : s0.consumed < budget ∧ s0.deadcount < N) : P ≠ 0 := by
  cases fuel with
  | zero => rw [wrrLoop] at h; exact absurd h (fun hh => Except.noConfusion hh)
  | succ f =>
    rw [wrrLoop, if_pos hc] at h
    intro hP0
    subst hP0
    have hst : wrrStep acc exec 0 N s0 = .error .divByZero := rfl
    rw [hst] at h
    exact absurd h (fun hh => Except.noConfusion hh)

theorem wrrLoop_updates_invariant (acc : Org → Nat)
    (exec : Nat → Nat → List Org → List Org) (budget P N : Nat) :
    ∀ fuel s s2,
      (s.updates.Chain' (· < ·)
        ∧ (∀ (u : Nat), u ∈ s.updates → (u : Int) ≤ s.last_period)
        ∧ s.last_period ≤ ((s.consumed / P : Nat) : Int)
        ∧ (∀ u, u ∈ s.updates → u ≤ (budget - 1) / P)) →
      wrrLoop acc exec budget P N fuel s = .ok s2 →
      (s2.updates.Chain' (· < ·)
        ∧ (∀ (u : Nat), u ∈ s2.updates → (u : Int) ≤ s2.last_period)
        ∧ s2.last_period ≤ ((s2.consumed / P : Nat) : Int)
        ∧ (∀ u, u ∈ s2.updates → u ≤ (budget - 1) / P)) := by
  intro fuel s s2 hInv h
  refine wrrLoop_invariant acc exec budget P N (fun st =>
      st.updates.Chain' (· < ·)
      ∧ (∀ (u : Nat), u ∈ st.updates → (u : Int) ≤ st.last_period)
      ∧ st.last_period ≤ ((st.consumed / P : Nat) : Int)
      ∧ (∀ u, u ∈ st.updates → u ≤ (budget - 1) / P)) ?_ fuel s s2 hInv h
  intro st st2 hI hlt _ hs
  obtain ⟨hPne, s1, p, hs1, -, hbr⟩ := wrrStep_ok_cases acc exec P N st st2 hs
  obtain ⟨hc1, hc2, hc3, hc4⟩ := hI
  have hs1inv : s1.updates.Chain' (· < ·)
      ∧ (∀ (u : Nat), u ∈ s1.updates → (u : Int) ≤ s1.last_period)
      ∧ s1.last_period ≤ ((st.consumed / P : Nat) : Int)
      ∧ (∀ u, u ∈ s1.updates → u ≤ (budget - 1) / P)
      ∧ s1.consumed = st.consumed := by
    rcases hs1 with ⟨hper, he⟩ | ⟨hper, he⟩
    · subst he
      exact ⟨hc1, hc2, hc3, hc4, rfl⟩
    · subst he
      dsimp only
      have hlt2 : st.last_period < ((st.consumed / P : Nat) : Int) :=
        lt_of_le_of_ne hc3 (fun hh => hper hh.symm)
      refine ⟨?_, ?_, le_refl _, ?_, rfl⟩
      · refine chain_lt_append_last st.updates (st.consumed / P) hc1 (fun u hu => ?_)
        exact Int.ofNat_lt.mp (lt_of_le_of_lt (hc2 u hu) hlt2)
      · intro u hu
        rcases List.mem_append.mp hu with h1 | h1
        · exact le_trans (hc2 u h1) (le_of_lt hlt2)
        · rw [List.mem_singleton] at h1
          rw [h1]
      · intro u hu
        rcases List.mem_append.mp hu with h1 | h1
        · exact hc4 u h1
        · rw [List.mem_singleton] at h1
          rw [h1]
          exact Nat.div_le_div_right (by omega)
  obtain ⟨h1, h2, h3, h4, h5⟩ := hs1inv
  rcases hbr with ⟨-, he2⟩ | ⟨-, he2⟩ <;> subst he2 <;> dsimp only
  · refine ⟨h1, h2, ?_, h4⟩
    refine le_trans h3 (Int.ofNat_le.mpr (Nat.div_le_div_right ?_))
    omega
  · refine ⟨h1, h2, ?_, h4⟩
    rw [h5]
    exact h3

/-- C9: on a non-empty population in which every organism is dead at
tick start (with a configuration giving a nonzero period length), the
tick consumes 0 CPU cycles, executes no organism (the execute trace is
empty), and the loop terminates once `deadcount` reaches `N` regardless
of unused budget; the rebuilt population is empty. -/
theorem C9_all_dead_tick_consumes_nothing (acc : Org → Nat)
    (exec : Nat → Nat → List Org → List Org) (TS RS PS : Nat) (pop : List Org)
    (fuel : Nat) (hdead : ∀ o ∈ pop, o.alive = false)
    (hP : 1 ≤ TS * min pop.length PS / RS) (hfuel : pop.length + 1 < fuel) :
    ∃ s, wrrTick acc exec TS RS PS pop fuel = .ok ([], s)
      ∧ s.consumed = 0 ∧ s.executed = [] ∧ s.deadcount = pop.length := by
  obtain ⟨i2, h⟩ := wrrTick_all_dead acc exec TS RS PS pop fuel hdead hP hfuel
  exact ⟨⟨pop, 0, 0, i2, pop.length, [0], []⟩, h, rfl, rfl, rfl⟩

/-- C9 witness: a population of three dead organisms with
`time_slice = 10`: the tick consumes nothing and executes nobody. -/
theorem C9_witness :
    ∃ s, wrrTick access.fixed_priority idExec 10 1 3
        [⟨false, 1, 0, none⟩, ⟨false, 1, 1, none⟩, ⟨false, 1, 2, none⟩] 6 = .ok ([], s)
      ∧ s.consumed = 0 ∧ s.executed = []
      ∧ s.deadcount
          = ([⟨false, 1, 0, none⟩, ⟨false, 1, 1, none⟩, ⟨false, 1, 2, none⟩] : List Org).length :=
  C9_all_dead_tick_consumes_nothing access.fixed_priority idExec 10 1 3
    [⟨false, 1, 0, none⟩, ⟨false, 1, 1, none⟩, ⟨false, 1, 2, none⟩] 6
    (by decide) (by decide) (by decide)

/-- C10: on a non-empty all-dead population with a nonzero period
length, the scheduler still invokes the resource pool's update with
`delta_t` exactly once — on the first loop iteration, for period 0 —
even though no organism executes and no cycles are consumed. -/
theorem C10_all_dead_still_one_resource_update (acc : Org → Nat)
    (exec : Nat → Nat → List Org → List Org) (TS RS PS : Nat) (pop : List Org)
    (fuel : Nat) (hdead : ∀ o ∈ pop, o.alive = false)
    (hP : 1 ≤ TS * min pop.length PS / RS) (hfuel : pop.length + 1 < fuel) :
    ∃ s, wrrTick acc exec TS RS PS pop fuel = .ok ([], s)
      ∧ s.updates = [0] ∧ s.consumed = 0 ∧ s.executed = [] := by
  obtain ⟨i2, h⟩ := wrrTick_all_dead acc exec TS RS PS pop fuel hdead hP hfuel
  exact ⟨⟨pop, 0, 0, i2, pop.length, [0], []⟩, h, rfl, rfl, rfl⟩

theorem ceil_div_shift (b P : Nat) (hP : P ≠ 0) (hb : 1 ≤ b) :
    (b - 1) / P + 1 = (b + P - 1) / P := by
  have h1 : b + P - 1 = (b - 1) + P := by omega
  rw [h1, Nat.add_div_right _ (Nat.pos_of_ne_zero hP)]

theorem wrrLoop_unit_trace (acc : Org → Nat) (hacc : ∀ o, acc o = 1) (pop : List Org)
    (hal : ∀ o ∈ pop, o.alive = true) (budget P : Nat) (hP : P ≠ 0) (hb : 1 ≤ budget) :
    ∀ fuel c i lp ups ex s2,
      ((c = 0 ∧ lp = -1 ∧ ups = [])
        ∨ (1 ≤ c ∧ lp = (((c - 1) / P : Nat) : Int) ∧ ups = List.range ((c - 1) / P + 1))) →
      i < pop.length → c ≤ budget →
      wrrLoop acc idExec budget P pop.length fuel ⟨pop, c, lp, i, 0, ups, ex⟩ = .ok s2 →
      s2.updates = List.range ((budget - 1) / P + 1) := by
  intro fuel
  induction fuel with
  | zero =>
    intro c i lp ups ex s2 _ _ _ h
    rw [wrrLoop] at h
    exact absurd h (fun hh => Except.noConfusion hh)
  | succ fuel ih =>
    intro c i lp ups ex s2 hstate hi hcb h
    have hN : 0 < pop.length := Nat.lt_of_le_of_lt (Nat.zero_le i) hi
    by_cases hcond : c < budget
    · rw [wrrLoop, if_pos ⟨hcond, hN⟩] at h
      have hp0 : pop[i]? = some (pop.get ⟨i, hi⟩) := by
        rw [List.getElem?_eq_getElem hi, List.get_eq_getElem]
      have halp : (pop.get ⟨i, hi⟩).alive = true := hal _ (List.get_mem pop _ _)
      rcases hstate with ⟨hc0, hlp, hups⟩ | ⟨hc1, hlp, hups⟩
      · subst hc0
        subst hlp
        subst hups
        have hper : ((0 / P : Nat) : Int) ≠ (-1 : Int) := by rw [Nat.zero_div]; decide
        have hstep := wrrStep_alive_update acc idExec P pop.length
          ⟨pop, 0, -1, i, 0, [], ex⟩ (pop.get ⟨i, hi⟩) hP hper hp0 halp
        rw [hstep] at h
        simp only [idExec, hacc, Nat.zero_div, Nat.cast_zero, List.nil_append,
          Nat.zero_add] at h
        refine ih 1 ((i + 1) % pop.length) 0 [0] (ex ++ [1]) s2 ?_
          (Nat.mod_lt _ hN) (by omega) h
        refine Or.inr ⟨le_refl 1, by simp, ?_⟩
        rw [show (1 : Nat) - 1 = 0 from rfl, Nat.zero_div]
        decide
      · subst hlp
        subst hups
        by_cases hdiv : c / P = (c - 1) / P
        · have hper : ((c / P : Nat) : Int) = (((c - 1) / P : Nat) : Int) := by rw [hdiv]
          have hstep := wrrStep_alive acc idExec P pop.length
            ⟨pop, c, (((c - 1) / P : Nat) : Int), i, 0, List.range ((c - 1) / P + 1), ex⟩
            (pop.get ⟨i, hi⟩) hP hper hp0 halp
          rw [hstep] at h
          simp only [idExec, hacc] at h
          refine ih (c + 1) ((i + 1) % pop.length) _ _ (ex ++ [1]) s2 ?_
            (Nat.mod_lt _ hN) (by omega) h
          refine Or.inr ⟨by omega, ?_, ?_⟩
          · rw [show c + 1 - 1 = c from rfl, hdiv]
          · rw [show c + 1 - 1 = c from rfl, hdiv]
        · have hub : c / P ≤ (c - 1) / P + 1 := by
            have h2 : c ≤ (c - 1) + P := by omega
            calc c / P ≤ ((c - 1) + P) / P := Nat.div_le_div_right h2
              _ = (c - 1) / P + 1 := Nat.add_div_right _ (Nat.pos_of_ne_zero hP)
          have hle : (c - 1) / P ≤ c / P := Nat.div_le_div_right (by omega)
          have heq : c / P = (c - 1) / P + 1 := by omega
          have hper : ((c / P : Nat) : Int) ≠ (((c - 1) / P : Nat) : Int) := by
            intro hh
            exact hdiv (Nat.cast_inj.mp hh)
          have hstep := wrrStep_alive_update acc idExec P pop.length
            ⟨pop, c, (((c - 1) / P : Nat) : Int), i, 0, List.range ((c - 1) / P + 1), ex⟩
            (pop.get ⟨i, hi⟩) hP hper hp0 halp
          rw [hstep] at h
          simp only [idExec, hacc] at h
          refine ih (c + 1) ((i + 1) % pop.length) _ _ (ex ++ [1]) s2 ?_
            (Nat.mod_lt _ hN) (by omega) h
          refine Or.inr ⟨by omega, ?_, ?_⟩
          · rw [show c + 1 - 1 = c from rfl]
          · rw [show c + 1 - 1 = c from rfl]
            conv_rhs => rw [List.range_succ]
            rw [heq]
    · have hceq : c = budget := by omega
      rw [wrrLoop, if_neg (fun hcc => hcond hcc.1)] at h
      injection h with h2
      rw [← h2]
      rcases hstate with ⟨hc0, -, -⟩ | ⟨-, -, hups⟩
      · omega
      · dsimp only
        rw [hups, hceq]

/-- C3 counterexample: one live organism of priority 5, `time_slice =
8`, `resource_slice = 4` (budget 8, period length 2): the tick advances
the resource pool only twice, for periods 0 and 2, not the claimed
`⌈budget / period_length⌉ = 4` times, and period 1 is skipped because
the 5-cycle quantum jumps straight over it. -/
theorem C3_counterexample :
    wrrTick access.priority idExec 8 4 1 [⟨true, 5, 0, none⟩] 8
      = .ok ([⟨true, 5, 0, none⟩], ⟨[⟨true, 5, 0, none⟩], 10, 2, 0, 0, [0, 2], [5, 5]⟩)
    ∧ ¬ (([0, 2] : List Nat).length = (8 + 2 - 1) / 2)
    ∧ (1 : Nat) ∉ ([0, 2] : List Nat) :=
  ⟨rfl, by decide, by decide⟩

/-- C3 (amended): every resource-pool advance during a tick (each with
the same `delta_t = 1/resource_slice`) is for a strictly greater period
than the previous one — no period is ever double-applied — and the
number of advances is at most `⌈budget / period_length⌉`; a quantum
spanning several periods skips the intermediate ones, and the exact
pattern `[0, 1, ..., (budget-1)/period_length]` (hence exactly
`⌈budget / period_length⌉` advances, no period skipped) is reached when
every quantum is 1 and every organism stays alive. -/
theorem C3_resource_update_count (acc : Org → Nat)
    (exec : Nat → Nat → List Org → List Org) (TS RS PS : Nat) (pop : List Org)
    (fuel : Nat) (next : List Org) (s : LoopState)
    (hbud : 1 ≤ TS * min pop.length PS)
    (h : wrrTick acc exec TS RS PS pop fuel = .ok (next, s)) :
    s.updates.Chain' (· < ·)
    ∧ s.updates.length
        ≤ (TS * min pop.length PS + TS * min pop.length PS / RS - 1)
            / (TS * min pop.length PS / RS)
    ∧ ((∀ o, acc o = 1) → exec = idExec → (∀ o ∈ pop, o.alive = true) →
        s.updates
          = List.range
              ((TS * min pop.length PS - 1) / (TS * min pop.length PS / RS) + 1)) := by
  obtain ⟨hloop, -⟩ := wrrTick_ok acc exec TS RS PS pop fuel next s h
  have hN : 0 < pop.length := by
    rcases Nat.eq_zero_or_pos pop.length with h0 | hpos
    · rw [h0] at hbud
      simp at hbud
    · exact hpos
  have hPne : TS * min pop.length PS / RS ≠ 0 :=
    wrrLoop_ok_P_ne_zero acc exec (TS * min pop.length PS) (TS * min pop.length PS / RS)
      pop.length fuel ⟨pop, 0, -1, 0, 0, [], []⟩ s hloop ⟨hbud, hN⟩
  obtain ⟨hchain, -, -, hbound⟩ := wrrLoop_updates_invariant acc exec
    (TS * min pop.length PS) (TS * min pop.length PS / RS) pop.length fuel
    ⟨pop, 0, -1, 0, 0, [], []⟩ s
    ⟨List.chain'_nil, fun u hu => absurd hu (List.not_mem_nil u),
      le_trans (show (-1 : Int) ≤ 0 by decide) (Int.natCast_nonneg _),
      fun u hu => absurd hu (List.not_mem_nil u)⟩ hloop
  refine ⟨hchain, ?_, ?_⟩
  · have hlen := chain_lt_length_le
      ((TS * min pop.length PS - 1) / (TS * min pop.length PS / RS)) s.updates hchain hbound
    rwa [ceil_div_shift _ _ hPne hbud] at hlen
  · intro hacc2 hexec halive
    subst hexec
    exact wrrLoop_unit_trace acc hacc2 pop halive (TS * min pop.length PS)
      (TS * min pop.length PS / RS) hPne hbud fuel 0 0 (-1) [] [] s
      (Or.inl ⟨rfl, rfl, rfl⟩) hN (Nat.zero_le _) hloop

/-- C3 witness: two live organisms, fixed unit-quantum accessor,
`time_slice = 4`, `resource_slice = 2` (budget 8, period length 4): the
advances are exactly for periods 0 and 1, `⌈8 / 4⌉ = 2` of them. -/
theorem C3_witness :
    (LoopState.updates ⟨[⟨true, 1, 0, none⟩, ⟨true, 1, 1, none⟩], 8, 1, 0, 0, [0, 1],
        [1, 1, 1, 1, 1, 1, 1, 1]⟩).Chain' (· < ·)
    ∧ (LoopState.updates ⟨[⟨true, 1, 0, none⟩, ⟨true, 1, 1, none⟩], 8, 1, 0, 0, [0, 1],
        [1, 1, 1, 1, 1, 1, 1, 1]⟩).length
        ≤ (4 * min ([(⟨true, 1, 0, none⟩ : Org), ⟨true, 1, 1, none⟩] : List Org).length 2
            + 4 * min ([(⟨true, 1, 0, none⟩ : Org), ⟨true, 1, 1, none⟩] : List Org).length 2 / 2
            - 1)
          / (4 * min ([(⟨true, 1, 0, none⟩ : Org), ⟨true, 1, 1, none⟩] : List Org).length 2 / 2)
    ∧ ((∀ o, access.fixed_priority o = 1) → idExec = idExec →
        (∀ o ∈ ([(⟨true, 1, 0, none⟩ : Org), ⟨true, 1, 1, none⟩] : List Org), o.alive = true) →
        (LoopState.updates ⟨[⟨true, 1, 0, none⟩, ⟨true, 1, 1, none⟩], 8, 1, 0, 0, [0, 1],
            [1, 1, 1, 1, 1, 1, 1, 1]⟩)
          = List.range
              ((4 * min ([(⟨true, 1, 0, none⟩ : Org), ⟨true, 1, 1, none⟩] : List Org).length 2
                  - 1)
                / (4 * min ([(⟨true, 1, 0, none⟩ : Org),
                      ⟨true, 1, 1, none⟩] : List Org).length 2 / 2)
                + 1)) :=
  C3_resource_update_count access.fixed_priority idExec 4 2 2
    [⟨true, 1, 0, none⟩, ⟨true, 1, 1, none⟩] 12
    [⟨true, 1, 0, none⟩, ⟨true, 1, 1, none⟩]
    ⟨[⟨true, 1, 0, none⟩, ⟨true, 1, 1, none⟩], 8, 1, 0, 0, [0, 1], [1, 1, 1, 1, 1, 1, 1, 1]⟩
    (by decide) rfl

/-- C10 witness: two dead organisms, `time_slice = 4`,
`resource_slice = 2`: the resource pool is advanced exactly once, for
period 0. -/
theorem C10_witness :
    ∃ s, wrrTick access.fixed_priority idExec 4 2 2
        [⟨false, 1, 0, none⟩, ⟨false, 1, 1, none⟩] 8 = .ok ([], s)
      ∧ s.updates = [0] ∧ s.consumed = 0 ∧ s.executed = [] :=
  C10_all_dead_still_one_resource_update access.fixed_priority idExec 4 2 2
    [⟨false, 1, 0, none⟩, ⟨false, 1, 1, none⟩] 8 (by decide) (by decide) (by decide)

/-- C5 witness: the endpoint and idempotence properties instantiated on
a concrete two-node lineage with distinct representations. -/
theorem C5_witness :
    (uniq [⟨true, 1, 7, none⟩, ⟨true, 2, 8, none⟩]).getLast?
        = ([(⟨true, 1, 7, none⟩ : Org), ⟨true, 2, 8, none⟩] : List Org).getLast?
    ∧ (runiq [⟨true, 1, 7, none⟩, ⟨true, 2, 8, none⟩]).head?
        = ([(⟨true, 1, 7, none⟩ : Org), ⟨true, 2, 8, none⟩] : List Org).head?
    ∧ (uniq [⟨true, 1, 7, none⟩, ⟨true, 2, 8, none⟩]).head?.map Org.repr
        = ([(⟨true, 1, 7, none⟩ : Org), ⟨true, 2, 8, none⟩] : List Org).head?.map Org.repr
    ∧ (runiq [⟨true, 1, 7, none⟩, ⟨true, 2, 8, none⟩]).getLast?.map Org.repr
        = ([(⟨true, 1, 7, none⟩ : Org), ⟨true, 2, 8, none⟩] : List Org).getLast?.map Org.repr
    ∧ uniq (uniq [⟨true, 1, 7, none⟩, ⟨true, 2, 8, none⟩])
        = uniq [⟨true, 1, 7, none⟩, ⟨true, 2, 8, none⟩]
    ∧ runiq (runiq [⟨true, 1, 7, none⟩, ⟨true, 2, 8, none⟩])
        = runiq [⟨true, 1, 7, none⟩, ⟨true, 2, 8, none⟩] :=
  C5_uniq_runiq_endpoints_idempotent [⟨true, 1, 7, none⟩, ⟨true, 2, 8, none⟩]

end EALib
